import Mathlib

/-!
Verification of the `rf` pipeline orchestrator (`src/rf/rflib.py`).

The program discovers a dependency graph encoded in a filesystem hierarchy
and synthesizes a make script.  The shallow embedding below models the
filesystem as a record of the observation functions the Python code calls
(`os.path.isdir`, `os.path.exists`, `os.access(..., X_OK)`, `os.path.islink`,
`os.listdir`, `os.path.realpath`); every function of the source is translated
into a pure Lean function over that record.  Side-effecting code
(`subprocess` in `run_make`) is modelled by an explicit event trace, and the
potentially non-terminating BFS loop of `find_dependencies` is modelled with
explicit fuel: `none` means the loop has not finished within `fuel`
iterations (or that a Python `assert` failed at entry).
-/

namespace RF

/-- Filesystem state as observed by the Python code: one field per `os`
primitive the source calls.  `fsExists` is `os.path.exists`, `isexec` is
`os.access(p, os.X_OK)`. -/
structure FS where
  isdir : String → Bool
  fsExists : String → Bool
  isexec : String → Bool
  islink : String → Bool
  listdir : String → List String
  realpath : String → String

/-- Translation of `is_ready_to_run` (rflib.py:27-38):
`node is not None and os.path.isdir(node+'/__') and
 not os.path.exists(node+'/_') and os.access(node+'/__/driver', os.X_OK)`.
The `node is not None` guard is modelled by the `Option` match. -/
def is_ready_to_run (fs : FS) (node : Option String) : Bool :=
  match node with
  | none => false
  | some n =>
    fs.isdir (n ++ "/__") && !fs.fsExists (n ++ "/_") && fs.isexec (n ++ "/__/driver")

/-- Translation of `dependency_links` (rflib.py:98-113): for each entry `x`
of `node/__/dep` that is a symlink to a directory, yield
`os.path.realpath(depdir+'/'+x)`. -/
def dependency_links (fs : FS) (node : String) : List String :=
  let depdir := node ++ "/__/dep"
  if fs.isdir depdir then
    ((fs.listdir depdir).filter
        (fun x => fs.islink (depdir ++ "/" ++ x) && fs.isdir (depdir ++ "/" ++ x))).map
      (fun x => fs.realpath (depdir ++ "/" ++ x))
  else []

/-- Byte-level `String.startswith`: `strStarts p s` is true iff the char list
`p` is a prefix of `s` (structural recursion, kernel-reducible). -/
def strStarts : List Char → List Char → Bool
  | [], _ => true
  | _ :: _, [] => false
  | p :: ps, c :: cs => p == c && strStarts ps cs

/-- Translation of `belongs_to_tree` (rflib.py:116-126):
`(os.path.realpath(dirname)+'/').startswith(os.path.realpath(basedir)+'/')`.
The Python `assert os.path.isdir(...)` holds at every call site of the
program on a coherent filesystem; it is not part of the returned value. -/
def belongs_to_tree (fs : FS) (dirname basedir : String) : Bool :=
  strStarts (fs.realpath basedir ++ "/").data (fs.realpath dirname ++ "/").data

/-- Subdirectories enqueued by the traversal (rflib.py:68):
`filter(os.path.isdir, (os.path.join(child,x) for x in os.listdir(child)
 if x not in ['_','__']))`. -/
def travChildren (fs : FS) (child : String) : List String :=
  (((fs.listdir child).filter (fun x => !(x == "_" || x == "__"))).map
      (fun x => child ++ "/" ++ x)).filter fs.isdir

/-- Dependency list computed for one popped queue item (rflib.py:57-61):
`[x for x in [parent] + l if x is not None and
  is_ready_to_run(os.path.realpath(x)) and belongs_to_tree(x, node)]`.
`parent.toList ++ ...` realizes `[parent] + l` with the `x is not None`
filter already applied to the only possibly-`None` element. -/
def depsOf (fs : FS) (root : String) (parent : Option String) (child : String) :
    List String :=
  (parent.toList ++ dependency_links fs child).filter
    (fun x => is_ready_to_run fs (some (fs.realpath x)) && belongs_to_tree fs x root)

/-- The BFS loop of `find_dependencies` (rflib.py:53-68), one fuel unit per
`queue.pop(0)`.  Returns `none` when the fuel runs out before the queue is
empty. -/
def find_dependencies_from (fs : FS) (root : String) (recursive : Bool) :
    Nat → List (Option String × String) → Option (List (List String × String))
  | _, [] => some []
  | 0, _ :: _ => none
  | fuel + 1, (parent, child) :: rest =>
    let emitted :=
      if is_ready_to_run fs (some (fs.realpath child)) && belongs_to_tree fs child root
      then [(depsOf fs root parent child, child)] else []
    let queue2 := rest ++
      (if recursive then (travChildren fs child).map (fun xx => (some child, xx)) else [])
    (find_dependencies_from fs root recursive fuel queue2).map (fun out => emitted ++ out)

/-- Translation of `find_dependencies` (rflib.py:41-68).  The entry
`assert os.path.isdir(node)` is modelled as failure (`none`) when the root is
not a directory; the queue is seeded with `[(None, node)]`. -/
def find_dependencies (fs : FS) (node : String) (recursive : Bool) (fuel : Nat) :
    Option (List (List String × String)) :=
  if fs.isdir node then find_dependencies_from fs node recursive fuel [(none, node)]
  else none

/-- Translation of `nohup_out` (rflib.py:71-72). -/
def nohup_out (node : String) : String := node ++ "/_/nohup.out"

/-- Python `' '.join(l)`. -/
def join_space : List String → String
  | [] => ""
  | [x] => x
  | x :: y :: xs => x ++ " " ++ join_space (y :: xs)

/-- Translation of `rule_string` (rflib.py:75-95).  The Python template
`'.ONESHELL:\n%s: %s\n\tdate\n\tmkdir %s/_\n\tcd %s/_\n\tnohup ../__/driver\n\n'`
is written as a concatenation split at its newlines (the resulting string is
byte-identical to the template instantiation). -/
def rule_string (dependencies : List String) (node : String) : String :=
  ".ONESHELL:" ++ "\n" ++
  nohup_out node ++ ": " ++ join_space (dependencies.map nohup_out) ++ "\n" ++
  "\tdate" ++ "\n" ++
  "\tmkdir " ++ node ++ "/_" ++ "\n" ++
  "\tcd " ++ node ++ "/_" ++ "\n" ++
  "\tnohup ../__/driver" ++ "\n" ++
  "\n"

/-- Python `set.add`: the set's mathematical content, kept as its
insertion-ordered list of distinct elements. -/
def setAdd (s : List String) (x : String) : List String :=
  if x ∈ s then s else s ++ [x]

/-- Adding every element of `xs` to the set `s` (`for p in l: s.add(p)`). -/
def setAddAll (s : List String) (xs : List String) : List String :=
  xs.foldl setAdd s

/-- Translation of `makefile` (rflib.py:129-156).  CPython iterates `set`
objects in hash-table order, which is unspecified (and randomized across
processes for strings); the parameter `ord` models that iteration order: it
is applied to the insertion-ordered element list of a set each time the
Python code iterates one (`dependency_set.difference(child_set)` and
`dependency_set.union(child_set)`).  Everything else follows the source
line by line. -/
def makefile (ord : List String → List String)
    (pairs : List (List String × String)) : String :=
  let acc := pairs.foldl
    (fun (a : List String × List String × String) dc =>
      (setAddAll a.1 dc.1, setAdd a.2.1 dc.2, a.2.2 ++ rule_string dc.1 dc.2))
    ([], [], "")
  let withTrivial := (ord (acc.1.filter (fun x => !(acc.2.1.contains x)))).foldl
    (fun m node => m ++ rule_string [] node) acc.2.2
  "all: " ++ join_space ((ord (setAddAll acc.1 acc.2.1)).map nohup_out) ++ "\n\n" ++
    withTrivial

/-- Insertion-ordered content of `dependency_set` after consuming `pairs`. -/
def depSetOf (pairs : List (List String × String)) : List String :=
  pairs.foldl (fun s dc => setAddAll s dc.1) []

/-- Insertion-ordered content of `child_set` after consuming `pairs`. -/
def childSetOf (pairs : List (List String × String)) : List String :=
  pairs.foldl (fun s dc => setAdd s dc.2) []

/-- Concatenated node rules, in stream order (`makefile_string` before the
trailing trivial-rule pass). -/
def bodyOf (pairs : List (List String × String)) : String :=
  pairs.foldl (fun m dc => m ++ rule_string dc.1 dc.2) ""

/-- Content of `dependency_set.difference(child_set)`. -/
def diffOf (pairs : List (List String × String)) : List String :=
  (depSetOf pairs).filter (fun x => !((childSetOf pairs).contains x))

/-- Content of `dependency_set.union(child_set)`. -/
def unionOf (pairs : List (List String × String)) : List String :=
  setAddAll (depSetOf pairs) (childSetOf pairs)

/-- The rules of the synthesized script as (dependencies, node) entries:
the streamed node rules followed by the dependency-free trivial rules in
set-iteration order `ord`. -/
def rulesOf (ord : List String → List String)
    (pairs : List (List String × String)) : List (List String × String) :=
  pairs ++ (ord (diffOf pairs)).map (fun n => (([] : List String), n))

/-- Concatenation of `rule_string` over a list of rules. -/
def rules_text (rs : List (List String × String)) : String :=
  rs.foldl (fun m dc => m ++ rule_string dc.1 dc.2) ""

/-- Interaction of `run_make` with the outside world, in program order. -/
inductive BridgeEvent where
  | spawn (cmd : List String)
  | write (s : String)
  | closeStdin
  | wait (status : Int)
deriving DecidableEq

/-- Translation of `run_make` (rflib.py:159-168).  The external executor is
modelled by `makeExit`, mapping the script written to its stdin to its exit
status.  The event list is the trace of the four subprocess calls
(`Popen`, `stdin.write`, `stdin.close`, `wait`); the second component is the
Python return value of `run_make`, which is `None` — the result of
`p.wait()` is discarded by the source. -/
def run_make (makeExit : String → Int) (makefile_string : String) :
    List BridgeEvent × Option Int :=
  ([BridgeEvent.spawn ["make", "-f", "-"], BridgeEvent.write makefile_string,
    BridgeEvent.closeStdin, BridgeEvent.wait (makeExit makefile_string)], none)

/-- Translation of `run` (rflib.py:171-183):
`run_make(makefile(find_dependencies(os.path.realpath(args.node), args.recursive)))`.
`none` models an uncaught exception (failed root assert) or exhausted fuel. -/
def run (fs : FS) (makeExit : String → Int) (ord : List String → List String)
    (node : String) (recursive : Bool) (fuel : Nat) :
    Option (List BridgeEvent × Option Int) :=
  (find_dependencies fs (fs.realpath node) recursive fuel).map
    (fun pairs => run_make makeExit (makefile ord pairs))

/-- Exit code of the whole process: CPython exits with status 0 whenever
`main` returns normally, and `main` never passes a status to `sys.exit` —
`run_make`'s discarded `p.wait()` result cannot reach it. -/
def process_exit_code (fs : FS) (makeExit : String → Int)
    (ord : List String → List String) (node : String) (recursive : Bool)
    (fuel : Nat) : Option Int :=
  (run fs makeExit ord node recursive fuel).map (fun _ => 0)

/-- Paths reachable by the traversal: the root, plus directory-listing names
joined onto an already-reached path.  These are exactly the (possibly
uncanonicalized) strings the BFS uses for nodes and implicit parents. -/
inductive TravPath (fs : FS) (root : String) : String → Prop
  | base : TravPath fs root root
  | step {p c : String} : TravPath fs root p → c ∈ travChildren fs p →
      TravPath fs root c

/-- A filesystem where every path is an executable-bearing directory and no
results directory exists; listings are empty. -/
def fs0 : FS where
  isdir := fun _ => true
  fsExists := fun _ => false
  isexec := fun _ => true
  islink := fun _ => false
  listdir := fun _ => []
  realpath := fun p => p

/-- A filesystem on which no path exists at all. -/
def fsN : FS where
  isdir := fun _ => false
  fsExists := fun _ => false
  isexec := fun _ => false
  islink := fun _ => false
  listdir := fun _ => []
  realpath := fun p => p

/-- A small concrete tree: root `/r` with single child `a`, where `/r/a`
declares one dependency link `x`; every path reads as an eligible directory. -/
def fs3 : FS where
  isdir := fun _ => true
  fsExists := fun _ => false
  isexec := fun _ => true
  islink := fun _ => true
  listdir := fun p =>
    if p = "/r" then ["a"] else if p = "/r/a/__/dep" then ["x"] else []
  realpath := fun p => p

/-- A concrete tree with a symlink: `/r` holds nodes `a`, `b` and a symlink
`s` whose canonical target is `/r/b`; node `a` declares a dependency link
`x` that also resolves to `/r/b`.  `/r` itself has no declaration directory. -/
def exFS : FS where
  isdir := fun p => p ∈ ["/r", "/r/a", "/r/b", "/r/s",
    "/r/a/__", "/r/b/__", "/r/s/__", "/r/a/__/dep", "/r/a/__/dep/x"]
  fsExists := fun p => p ∈ ["/r", "/r/a", "/r/b", "/r/s",
    "/r/a/__", "/r/b/__", "/r/s/__", "/r/a/__/dep", "/r/a/__/dep/x"]
  isexec := fun p => p ∈ ["/r/a/__/driver", "/r/b/__/driver"]
  islink := fun p => p ∈ ["/r/a/__/dep/x", "/r/s"]
  listdir := fun p =>
    if p = "/r" then ["a", "b", "s"] else if p = "/r/a/__/dep" then ["x"] else []
  realpath := fun p =>
    if p = "/r/s" then "/r/b" else if p = "/r/a/__/dep/x" then "/r/b" else p

/-- A filesystem state exhibiting a directory cycle as the code observes it:
every path is a directory whose listing is `["a"]` (e.g. a symlink `a`
pointing back at its own parent, resolved without a hop limit). -/
def cycFS : FS where
  isdir := fun _ => true
  fsExists := fun _ => false
  isexec := fun _ => false
  islink := fun _ => false
  listdir := fun _ => ["a"]
  realpath := fun p => p

/-- C1: `is_ready_to_run(p)` is true iff the four-part eligibility invariant
holds: `p` is a directory, `p/__` is a directory, `p/_` does not exist, and
`p/__/driver` is executable.  The code does not test `isdir p` itself; on a
coherent filesystem (hypothesis `hco`: a path with a `__` subdirectory is a
directory) the tested three parts imply it.  The classifier is a pure
function of the filesystem record, so it has no side effects by
construction. -/
theorem rf_C1 (fs : FS) (p : String)
    (hco : ∀ q, fs.isdir (q ++ "/__") = true → fs.isdir q = true) :
    is_ready_to_run fs (some p) = true ↔
      (fs.isdir p = true ∧ fs.isdir (p ++ "/__") = true ∧
       fs.fsExists (p ++ "/_") = false ∧ fs.isexec (p ++ "/__/driver") = true) := by
  simp only [is_ready_to_run, Bool.and_eq_true, Bool.not_eq_true']
  constructor
  · rintro ⟨⟨h1, h2⟩, h3⟩
    exact ⟨hco _ h1, h1, h2, h3⟩
  · rintro ⟨_, h1, h2, h3⟩
    exact ⟨⟨h1, h2⟩, h3⟩

/-- Witness for C1 on a concrete filesystem where every path is an eligible
directory. -/
theorem rf_C1_witness :
    is_ready_to_run fs0 (some "/n") = true ↔
      (fs0.isdir "/n" = true ∧ fs0.isdir ("/n" ++ "/__") = true ∧
       fs0.fsExists ("/n" ++ "/_") = false ∧
       fs0.isexec ("/n" ++ "/__/driver") = true) :=
  rf_C1 fs0 "/n" (fun _ _ => rfl)

/-- C8: on a path that does not exist (hypothesis `hne`: no extension of `p`
exists; `hde`: directories exist), `is_ready_to_run` returns `False`.  In the
source this is `os.path.isdir` swallowing the not-found condition; in the
embedding the classifier is total, i.e. no error escapes. -/
theorem rf_C8 (fs : FS) (p : String)
    (hne : ∀ s, fs.fsExists (p ++ s) = false)
    (hde : ∀ q, fs.isdir q = true → fs.fsExists q = true) :
    is_ready_to_run fs (some p) = false := by
  have h1 : fs.isdir (p ++ "/__") = false := by
    cases h : fs.isdir (p ++ "/__") with
    | false => rfl
    | true =>
      have hex := hde _ h
      rw [hne "/__"] at hex
      exact Bool.noConfusion hex
  simp [is_ready_to_run, h1]

/-- Witness for C8 on a filesystem where nothing exists. -/
theorem rf_C8_witness : is_ready_to_run fsN (some "/x") = false :=
  rf_C8 fsN "/x" (fun _ => rfl) (fun _ h => Bool.noConfusion h)

/-- C7: discovery is a pure function of the observed filesystem: two runs
over filesystem states that agree on every observation the code makes
(directory tests, existence, executability, link tests, listings, canonical
paths) return identical pair sequences.  In particular running the function
twice over one unchanged state yields the same result. -/
theorem rf_C7 (fs1 fs2 : FS) (root : String) (recursive : Bool) (fuel : Nat)
    (h1 : ∀ p, fs1.isdir p = fs2.isdir p)
    (h2 : ∀ p, fs1.fsExists p = fs2.fsExists p)
    (h3 : ∀ p, fs1.isexec p = fs2.isexec p)
    (h4 : ∀ p, fs1.islink p = fs2.islink p)
    (h5 : ∀ p, fs1.listdir p = fs2.listdir p)
    (h6 : ∀ p, fs1.realpath p = fs2.realpath p) :
    find_dependencies fs1 root recursive fuel =
      find_dependencies fs2 root recursive fuel := by
  have : fs1 = fs2 := by
    cases fs1
    cases fs2
    simp only [FS.mk.injEq]
    exact ⟨funext h1, funext h2, funext h3, funext h4, funext h5, funext h6⟩
  rw [this]

/-- Witness for C7: two identical runs over the concrete tree `fs3`. -/
theorem rf_C7_witness :
    find_dependencies fs3 "/r" true 5 = find_dependencies fs3 "/r" true 5 :=
  rf_C7 fs3 fs3 "/r" true 5 (fun _ => rfl) (fun _ => rfl) (fun _ => rfl)
    (fun _ => rfl) (fun _ => rfl) (fun _ => rfl)

/-- Counterexample to C5 as stated: with an executor that exits with status
2, the bridge still returns normally and the overall process exit code is 0,
not 2 — the executor's non-zero exit does not surface.  The trace confirms
the executor was waited on and did exit 2. -/
theorem rf_C5_cex :
    process_exit_code fs3 (fun _ => 2) (fun l => l) "/r" true 5 = some 0 ∧
    (run fs3 (fun _ => 2) (fun l => l) "/r" true 5).map
        (fun tr => tr.1.getLast?) = some (some (BridgeEvent.wait 2)) ∧
    (0 : Int) ≠ 2 := by
  refine ⟨by decide, by decide, by decide⟩

/-- C5 amended: the bridge does block until the external executor exits —
the last event of `run_make`'s trace is the `wait` carrying the executor's
exit status — but that status is discarded: `run_make` returns Python
`None`, and the process exit code of a normal run is 0 regardless of the
executor's status. -/
theorem rf_C5 (makeExit : String → Int) (s : String) :
    (run_make makeExit s).1.getLast? = some (BridgeEvent.wait (makeExit s)) ∧
    (run_make makeExit s).2 = none := by
  constructor <;> rfl

theorem mem_setAdd {s : List String} {x y : String} :
    y ∈ setAdd s x ↔ y ∈ s ∨ y = x := by
  unfold setAdd
  split
  · rename_i h
    constructor
    · exact Or.inl
    · rintro (hy | rfl)
      · exact hy
      · exact h
  · simp [List.mem_append]

theorem mem_setAddAll (xs : List String) :
    ∀ (s : List String) (y : String), y ∈ setAddAll s xs ↔ y ∈ s ∨ y ∈ xs := by
  induction xs with
  | nil => intro s y; simp [setAddAll]
  | cons a t ih =>
    intro s y
    show y ∈ setAddAll (setAdd s a) t ↔ _
    rw [ih, mem_setAdd]
    simp only [List.mem_cons]
    tauto

theorem depSet_fold_mem (pairs : List (List String × String)) :
    ∀ (s : List String) (y : String),
      y ∈ pairs.foldl (fun s dc => setAddAll s dc.1) s ↔
        y ∈ s ∨ ∃ dc ∈ pairs, y ∈ dc.1 := by
  induction pairs with
  | nil => intro s y; simp
  | cons dc t ih =>
    intro s y
    show y ∈ t.foldl _ (setAddAll s dc.1) ↔ _
    rw [ih, mem_setAddAll]
    simp only [List.mem_cons]
    constructor
    · rintro (⟨h | h⟩ | ⟨dc', h', hy⟩)
      · exact Or.inl h
      · exact Or.inr ⟨dc, Or.inl rfl, h⟩
      · exact Or.inr ⟨dc', Or.inr h', hy⟩
    · rintro (h | ⟨dc', h' | h', hy⟩)
      · exact Or.inl (Or.inl h)
      · exact Or.inl (Or.inr (h' ▸ hy))
      · exact Or.inr ⟨dc', h', hy⟩

theorem mem_depSetOf (pairs : List (List String × String)) (y : String) :
    y ∈ depSetOf pairs ↔ ∃ dc ∈ pairs, y ∈ dc.1 := by
  rw [depSetOf, depSet_fold_mem]
  simp

theorem childSet_fold_mem (pairs : List (List String × String)) :
    ∀ (c : List String) (y : String),
      y ∈ pairs.foldl (fun c dc => setAdd c dc.2) c ↔
        y ∈ c ∨ y ∈ pairs.map Prod.snd := by
  induction pairs with
  | nil => intro c y; simp
  | cons dc t ih =>
    intro c y
    show y ∈ t.foldl _ (setAdd c dc.2) ↔ _
    rw [ih, mem_setAdd]
    simp only [List.map_cons, List.mem_cons]
    tauto

theorem mem_childSetOf (pairs : List (List String × String)) (y : String) :
    y ∈ childSetOf pairs ↔ y ∈ pairs.map Prod.snd := by
  rw [childSetOf, childSet_fold_mem]
  simp

theorem makefile_foldl_split (pairs : List (List String × String)) :
    ∀ (s c : List String) (m : String),
      pairs.foldl
        (fun (a : List String × List String × String) dc =>
          (setAddAll a.1 dc.1, setAdd a.2.1 dc.2, a.2.2 ++ rule_string dc.1 dc.2))
        (s, c, m) =
      (pairs.foldl (fun s dc => setAddAll s dc.1) s,
       pairs.foldl (fun c dc => setAdd c dc.2) c,
       pairs.foldl (fun m dc => m ++ rule_string dc.1 dc.2) m) := by
  induction pairs with
  | nil => intro s c m; rfl
  | cons dc t ih => intro s c m; exact ih _ _ _

theorem rules_text_shift (l : List (List String × String)) :
    ∀ b : String,
      l.foldl (fun m dc => m ++ rule_string dc.1 dc.2) b = b ++ rules_text l := by
  induction l with
  | nil =>
    intro b
    simp only [List.foldl_nil, rules_text, String.append_empty]
  | cons dc t ih =>
    intro b
    have h2 : rules_text (dc :: t) = rule_string dc.1 dc.2 ++ rules_text t := by
      simp only [rules_text, List.foldl_cons]
      rw [ih ("" ++ rule_string dc.1 dc.2), String.empty_append]
      rfl
    simp only [List.foldl_cons]
    rw [ih (b ++ rule_string dc.1 dc.2), h2, String.append_assoc]

theorem triv_shift (l : List String) :
    ∀ b : String,
      l.foldl (fun m n => m ++ rule_string [] n) b =
        b ++ l.foldl (fun m n => m ++ rule_string [] n) "" := by
  induction l with
  | nil =>
    intro b
    simp only [List.foldl_nil, String.append_empty]
  | cons n t ih =>
    intro b
    simp only [List.foldl_cons]
    rw [ih (b ++ rule_string [] n), ih ("" ++ rule_string [] n), String.empty_append,
      String.append_assoc]

theorem rules_text_append (l1 l2 : List (List String × String)) :
    rules_text (l1 ++ l2) = rules_text l1 ++ rules_text l2 := by
  unfold rules_text
  rw [List.foldl_append]
  exact rules_text_shift l2 _

theorem rules_text_map_trivial (l : List String) :
    rules_text (l.map (fun n => (([] : List String), n))) =
      l.foldl (fun m n => m ++ rule_string [] n) "" := by
  unfold rules_text
  rw [List.foldl_map]

/-- Structure of the synthesized script, for any set-iteration order `ord`:
the umbrella rule over the union set, then the node rules in stream order,
then the trivial rules over the never-targeted dependency set. -/
theorem makefile_structure (ord : List String → List String)
    (pairs : List (List String × String)) :
    makefile ord pairs =
      "all: " ++ join_space ((ord (unionOf pairs)).map nohup_out) ++ "\n\n" ++
        rules_text (rulesOf ord pairs) := by
  unfold makefile
  rw [makefile_foldl_split]
  show "all: " ++ join_space ((ord (unionOf pairs)).map nohup_out) ++ "\n\n" ++
      ((ord (diffOf pairs)).foldl (fun m node => m ++ rule_string [] node)
        (bodyOf pairs)) = _
  rw [triv_shift (ord (diffOf pairs)) (bodyOf pairs)]
  rw [rulesOf, rules_text_append, rules_text_map_trivial]
  rfl

/-- C2: completeness of the synthesized script.  First conjunct: the script
is the umbrella rule followed by the emitted rules `rulesOf ord pairs`
(stream rules, then trivial rules with the same command template and no
prerequisites).  Second and third conjuncts: every marker appearing as a
prerequisite — in a node rule or in the umbrella rule — is the target marker
of some rule, because a dependency never seen as a target receives a trivial
rule.  `hord` states that set iteration enumerates exactly the set's
elements. -/
theorem rf_C2 (ord : List String → List String)
    (pairs : List (List String × String))
    (hord : ∀ (l : List String) (x : String), x ∈ ord l ↔ x ∈ l) :
    makefile ord pairs =
      "all: " ++ join_space ((ord (unionOf pairs)).map nohup_out) ++ "\n\n" ++
        rules_text (rulesOf ord pairs) ∧
    (∀ dc ∈ rulesOf ord pairs, ∀ x ∈ dc.1,
      nohup_out x ∈ (rulesOf ord pairs).map (fun r => nohup_out r.2)) ∧
    (∀ x ∈ unionOf pairs,
      nohup_out x ∈ (rulesOf ord pairs).map (fun r => nohup_out r.2)) := by
  have target_mem : ∀ x, x ∈ depSetOf pairs ∨ x ∈ childSetOf pairs →
      nohup_out x ∈ (rulesOf ord pairs).map (fun r => nohup_out r.2) := by
    intro x hx
    by_cases hc : x ∈ childSetOf pairs
    · obtain ⟨dc, hdc, heq⟩ := List.mem_map.mp ((mem_childSetOf pairs x).mp hc)
      exact List.mem_map.mpr ⟨dc, List.mem_append_left _ hdc, by rw [heq]⟩
    · have hd : x ∈ depSetOf pairs := hx.resolve_right hc
      have hdiff : x ∈ diffOf pairs := by
        refine List.mem_filter.mpr ⟨hd, ?_⟩
        simp only [Bool.not_eq_true']
        rw [← Bool.not_eq_true]
        intro hcon
        exact hc (List.elem_iff.mp hcon)
      have hmem : x ∈ ord (diffOf pairs) := (hord _ _).mpr hdiff
      exact List.mem_map.mpr
        ⟨([], x), List.mem_append_right _ (List.mem_map.mpr ⟨x, hmem, rfl⟩), rfl⟩
  refine ⟨makefile_structure ord pairs, ?_, ?_⟩
  · intro dc hdc x hx
    rcases List.mem_append.mp hdc with h | h
    · exact target_mem x (Or.inl ((mem_depSetOf pairs x).mpr ⟨dc, h, hx⟩))
    · obtain ⟨n, _, heq⟩ := List.mem_map.mp h
      rw [← heq] at hx
      exact absurd hx (List.not_mem_nil x)
  · intro x hx
    exact target_mem x ((mem_setAddAll _ _ _).mp hx)

/-- Witness for C2: in the script for one pair `(["a"], "c")`, the
never-targeted dependency `a` is the target of a (trivial) rule. -/
theorem rf_C2_witness :
    nohup_out "a" ∈
      (rulesOf (fun l => l) [(["a"], "c")]).map (fun r => nohup_out r.2) :=
  (rf_C2 (fun l => l) [(["a"], "c")] (fun _ _ => Iff.rfl)).2.2 "a" (by decide)

/-- Counterexample to C6 as stated: Python `set` iteration is not insertion
order — it may enumerate a set's elements in any order.  Reversal is such an
enumeration (a permutation of the set's elements), and under it the
synthesized script differs bytewise from the insertion-order script for the
stream `[(["a","b"],"c")]`: the trivial rules and the umbrella list come out
in a different order. -/
theorem rf_C6_cex :
    List.Perm (List.reverse (diffOf [(["a", "b"], "c")]))
      (diffOf [(["a", "b"], "c")]) ∧
    makefile List.reverse [(["a", "b"], "c")] ≠
      makefile (fun l => l) [(["a", "b"], "c")] := by
  exact ⟨by decide, by decide⟩

/-- C6 amended: node rules appear in the exact order their pairs are
consumed from the stream, and the stream segment is followed by the trivial
rules and preceded by the umbrella rule; but the trivial rules and the
umbrella's marker list enumerate Python sets in an unspecified iteration
order `ord` (some enumeration of the set elements), not necessarily the
order those paths were first inserted. -/
theorem rf_C6 (ord : List String → List String)
    (pairs : List (List String × String)) :
    makefile ord pairs =
      "all: " ++ join_space ((ord (unionOf pairs)).map nohup_out) ++ "\n\n" ++
        rules_text (rulesOf ord pairs) :=
  makefile_structure ord pairs

theorem find_from_nil (fs : FS) (root : String) (rec : Bool) (fuel : Nat) :
    find_dependencies_from fs root rec fuel [] = some [] := by
  cases fuel <;> rfl

theorem find_from_succ_cons (fs : FS) (root : String) (rec : Bool) (n : Nat)
    (p : Option String) (c : String) (rest : List (Option String × String)) :
    find_dependencies_from fs root rec (n + 1) ((p, c) :: rest) =
      (find_dependencies_from fs root rec n
        (rest ++
          (if rec then (travChildren fs c).map (fun xx => (some c, xx)) else []))).map
        (fun out =>
          (if is_ready_to_run fs (some (fs.realpath c)) && belongs_to_tree fs c root
           then [(depsOf fs root p c, c)] else []) ++ out) := rfl

theorem dependency_links_realpath (fs : FS) (node : String) :
    ∀ y ∈ dependency_links fs node,
      ∃ x, x ∈ fs.listdir (node ++ "/__/dep") ∧
        y = fs.realpath (node ++ "/__/dep" ++ "/" ++ x) := by
  intro y hy
  simp only [dependency_links] at hy
  split at hy
  · obtain ⟨x, hxf, heq⟩ := List.mem_map.mp hy
    exact ⟨x, (List.mem_filter.mp hxf).1, heq.symm⟩
  · exact absurd hy (List.not_mem_nil y)

theorem find_from_deps_sound (fs : FS) (root : String) (rec : Bool) :
    ∀ (fuel : Nat) (queue : List (Option String × String))
      (pairs : List (List String × String)),
      find_dependencies_from fs root rec fuel queue = some pairs →
      ∀ dc ∈ pairs, ∀ x ∈ dc.1,
        is_ready_to_run fs (some (fs.realpath x)) = true ∧
        belongs_to_tree fs x root = true := by
  intro fuel
  induction fuel with
  | zero =>
    intro queue pairs h
    cases queue with
    | nil =>
      rw [find_from_nil] at h
      injection h with h'
      subst h'
      intro dc hdc
      exact absurd hdc (List.not_mem_nil dc)
    | cons a t => exact Option.noConfusion h
  | succ n ih =>
    intro queue pairs h
    cases queue with
    | nil =>
      rw [find_from_nil] at h
      injection h with h'
      subst h'
      intro dc hdc
      exact absurd hdc (List.not_mem_nil dc)
    | cons pc rest =>
      obtain ⟨p, c⟩ := pc
      rw [find_from_succ_cons] at h
      obtain ⟨out, hout, hp⟩ := Option.map_eq_some'.mp h
      subst hp
      intro dc hdc x hx
      rcases List.mem_append.mp hdc with hem | hrest
      · by_cases hc :
          (is_ready_to_run fs (some (fs.realpath c)) && belongs_to_tree fs c root) = true
        · rw [if_pos hc] at hem
          rw [List.mem_singleton] at hem
          subst hem
          simp only [depsOf] at hx
          have hpred := (List.mem_filter.mp hx).2
          simp only [Bool.and_eq_true] at hpred
          exact hpred
        · rw [if_neg hc] at hem
          exact absurd hem (List.not_mem_nil dc)
      · exact ih _ _ hout dc hrest x hx

/-- C3: every dependency in every emitted pair passed the filter: its
canonical path is eligible, is a directory (on a coherent filesystem,
hypothesis `hco`), and is a prefix-descendant of the root's canonical path
(`belongs_to_tree`, unfolded to the prefix test on `realpath root ++ "/"`).
In particular a traversal parent outside the scanned subtree never enters a
dependency set. -/
theorem rf_C3 (fs : FS) (root : String) (recursive : Bool) (fuel : Nat)
    (pairs : List (List String × String))
    (hco : ∀ q, fs.isdir (q ++ "/__") = true → fs.isdir q = true)
    (h : find_dependencies fs root recursive fuel = some pairs) :
    ∀ dc ∈ pairs, ∀ x ∈ dc.1,
      fs.isdir (fs.realpath x) = true ∧
      is_ready_to_run fs (some (fs.realpath x)) = true ∧
      strStarts (fs.realpath root ++ "/").data (fs.realpath x ++ "/").data = true := by
  unfold find_dependencies at h
  split at h
  · intro dc hdc x hx
    obtain ⟨hready, hbel⟩ :=
      find_from_deps_sound fs root recursive fuel _ pairs h dc hdc x hx
    refine ⟨?_, hready, hbel⟩
    have hready' := hready
    simp only [is_ready_to_run, Bool.and_eq_true] at hready'
    exact hco _ hready'.1.1
  · exact absurd h (by exact fun hh => Option.noConfusion hh)

/-- Witness for C3 on the concrete tree `fs3`: the dependency-link target of
node `/r/a` satisfies all three conclusions. -/
theorem rf_C3_witness :
    fs3.isdir (fs3.realpath "/r/a/__/dep/x") = true ∧
    is_ready_to_run fs3 (some (fs3.realpath "/r/a/__/dep/x")) = true ∧
    strStarts (fs3.realpath "/r" ++ "/").data
      (fs3.realpath "/r/a/__/dep/x" ++ "/").data = true :=
  rf_C3 fs3 "/r" true 5 [([], "/r"), (["/r", "/r/a/__/dep/x"], "/r/a")]
    (fun _ _ => rfl) (by decide)
    (["/r", "/r/a/__/dep/x"], "/r/a") (by decide) "/r/a/__/dep/x" (by decide)

theorem find_from_paths (fs : FS) (root : String) (rec : Bool) :
    ∀ (fuel : Nat) (queue : List (Option String × String))
      (pairs : List (List String × String)),
      (∀ pc ∈ queue,
        (∀ q, pc.1 = some q → TravPath fs root q) ∧ TravPath fs root pc.2) →
      find_dependencies_from fs root rec fuel queue = some pairs →
      ∀ dc ∈ pairs, TravPath fs root dc.2 ∧
        ∀ x ∈ dc.1, TravPath fs root x ∨ ∃ w, x = fs.realpath w := by
  intro fuel
  induction fuel with
  | zero =>
    intro queue pairs hq h
    cases queue with
    | nil =>
      rw [find_from_nil] at h
      injection h with h'
      subst h'
      intro dc hdc
      exact absurd hdc (List.not_mem_nil dc)
    | cons a t => exact Option.noConfusion h
  | succ n ih =>
    intro queue pairs hq h
    cases queue with
    | nil =>
      rw [find_from_nil] at h
      injection h with h'
      subst h'
      intro dc hdc
      exact absurd hdc (List.not_mem_nil dc)
    | cons pc rest =>
      obtain ⟨p, c⟩ := pc
      rw [find_from_succ_cons] at h
      obtain ⟨out, hout, hp⟩ := Option.map_eq_some'.mp h
      subst hp
      have hq2 : ∀ pc ∈ rest ++
          (if rec then (travChildren fs c).map (fun xx => (some c, xx)) else []),
          (∀ q, pc.1 = some q → TravPath fs root q) ∧ TravPath fs root pc.2 := by
        intro pc2 hpc2
        rcases List.mem_append.mp hpc2 with hr | hnew
        · exact hq pc2 (List.mem_cons_of_mem _ hr)
        · have hc : TravPath fs root c := (hq (p, c) (List.mem_cons_self _ _)).2
          split at hnew
          · obtain ⟨xx, hxx, hpc⟩ := List.mem_map.mp hnew
            subst hpc
            exact ⟨fun q hqq => by injection hqq with hqq; subst hqq; exact hc,
              TravPath.step hc hxx⟩
          · exact absurd hnew (List.not_mem_nil pc2)
      intro dc hdc
      rcases List.mem_append.mp hdc with hem | hrest
      · by_cases hc :
          (is_ready_to_run fs (some (fs.realpath c)) && belongs_to_tree fs c root) = true
        · rw [if_pos hc] at hem
          rw [List.mem_singleton] at hem
          subst hem
          refine ⟨(hq (p, c) (List.mem_cons_self _ _)).2, ?_⟩
          intro x hx
          simp only [depsOf] at hx
          have hxm := (List.mem_filter.mp hx).1
          rcases List.mem_append.mp hxm with hpar | hlink
          · have : p = some x := by
              cases p with
              | none => exact absurd hpar (List.not_mem_nil x)
              | some v =>
                rw [show (some v : Option String).toList = [v] from rfl,
                  List.mem_singleton] at hpar
                subst hpar
                rfl
            exact Or.inl ((hq (p, c) (List.mem_cons_self _ _)).1 x this)
          · obtain ⟨w, _, hw⟩ := dependency_links_realpath fs c x hlink
            exact Or.inr ⟨_, hw⟩
        · rw [if_neg hc] at hem
          exact absurd hem (List.not_mem_nil dc)
      · exact ih _ _ hq2 hout dc hrest

/-- C9: (1) every explicit dependency yielded by `dependency_links` is the
`realpath` of a link inside the declaration directory, i.e. a canonical
symlink-resolved path; (2) every emitted node — and every dependency that is
not such a `realpath` image, i.e. the implicit traversal parent — keeps the
uncanonicalized path built by joining listing names onto the root
(`TravPath`); (3) consequently, on the concrete symlinked tree `exFS`, the
same canonical node `/r/b` appears once as the canonical dependency string
`/r/b` (prerequisite of `/r/a`) and once as the non-canonical traversal
string `/r/s` (an emitted rule target), two different path strings. -/
theorem rf_C9 :
    (∀ (fs : FS) (node y : String), y ∈ dependency_links fs node →
      ∃ x, x ∈ fs.listdir (node ++ "/__/dep") ∧
        y = fs.realpath (node ++ "/__/dep" ++ "/" ++ x)) ∧
    (∀ (fs : FS) (root : String) (recursive : Bool) (fuel : Nat)
        (pairs : List (List String × String)),
      find_dependencies fs root recursive fuel = some pairs →
      ∀ dc ∈ pairs, TravPath fs root dc.2 ∧
        ∀ x ∈ dc.1, TravPath fs root x ∨ ∃ w, x = fs.realpath w) ∧
    (find_dependencies exFS "/r" true 10 =
        some [(["/r/b"], "/r/a"), ([], "/r/b"), ([], "/r/s")] ∧
      exFS.realpath "/r/s" = "/r/b" ∧ exFS.realpath "/r/b" = "/r/b" ∧
      "/r/s" ≠ "/r/b") := by
  refine ⟨fun fs node => dependency_links_realpath fs node, ?_,
    by decide, rfl, rfl, by decide⟩
  intro fs root recursive fuel pairs h
  unfold find_dependencies at h
  split at h
  · refine find_from_paths fs root recursive fuel [(none, root)] pairs ?_ h
    intro pc hpc
    rw [List.mem_singleton] at hpc
    subst hpc
    exact ⟨fun q hq => Option.noConfusion hq, TravPath.base⟩
  · exact absurd h (fun hh => Option.noConfusion hh)

/-- Witness for C9 on `exFS`: the dependency string `/r/b` of node `/r/a`
is the canonical resolution of the link entry `x` of its declaration
directory. -/
theorem rf_C9_witness :
    ∃ x, x ∈ exFS.listdir ("/r/a" ++ "/__/dep") ∧
      "/r/b" = exFS.realpath ("/r/a" ++ "/__/dep" ++ "/" ++ x) :=
  rf_C9.1 exFS "/r/a" "/r/b" (by decide)

/-- Iterations needed to drain the subtree below `p`, indexed by a bound on
the nesting depth. -/
def treeFuelAux (fs : FS) : Nat → String → Nat
  | 0, _ => 1
  | n + 1, p => ((travChildren fs p).map (treeFuelAux fs n)).sum + 1

theorem treeFuelAux_pos (fs : FS) (n : Nat) (p : String) :
    1 ≤ treeFuelAux fs n p := by
  cases n with
  | zero => exact le_refl 1
  | succ m => exact Nat.le_add_left 1 _

theorem treeFuelAux_mono_succ (fs : FS) :
    ∀ (n : Nat) (p : String), treeFuelAux fs n p ≤ treeFuelAux fs (n + 1) p := by
  intro n
  induction n with
  | zero => intro p; exact treeFuelAux_pos fs 1 p
  | succ n ih =>
    intro p
    show ((travChildren fs p).map (treeFuelAux fs n)).sum + 1 ≤
      ((travChildren fs p).map (treeFuelAux fs (n + 1))).sum + 1
    have := List.sum_le_sum (l := travChildren fs p) (fun c _ => ih c)
    omega

theorem treeFuelAux_mono (fs : FS) {a b : Nat} (h : a ≤ b) (p : String) :
    treeFuelAux fs a p ≤ treeFuelAux fs b p := by
  induction h with
  | refl => exact le_refl _
  | step _ ih => exact le_trans ih (treeFuelAux_mono_succ fs _ p)

/-- Iterations needed to drain the subtree below node `c`, given a
depth-decreasing rank. -/
def nodeFuel (fs : FS) (rank : String → Nat) (c : String) : Nat :=
  treeFuelAux fs (rank c) c

/-- Iterations needed to drain a whole BFS queue. -/
def queueFuel (fs : FS) (rank : String → Nat)
    (queue : List (Option String × String)) : Nat :=
  (queue.map (fun pc => nodeFuel fs rank pc.2)).sum

theorem children_fuel_lt (fs : FS) (rank : String → Nat)
    (hr : ∀ p c, c ∈ travChildren fs p → rank c < rank p) (c : String) :
    ((travChildren fs c).map (nodeFuel fs rank)).sum + 1 ≤ nodeFuel fs rank c := by
  unfold nodeFuel
  cases hm : rank c with
  | zero =>
    cases hl : travChildren fs c with
    | nil => simp [hl, treeFuelAux]
    | cons x t =>
      have hmem := hr c x (by rw [hl]; exact List.mem_cons_self x t)
      rw [hm] at hmem
      exact absurd hmem (Nat.not_lt_zero _)
  | succ m =>
    show ((travChildren fs c).map (nodeFuel fs rank)).sum + 1 ≤
      ((travChildren fs c).map (treeFuelAux fs m)).sum + 1
    have hpt : ∀ x ∈ travChildren fs c, nodeFuel fs rank x ≤ treeFuelAux fs m x := by
      intro x hx
      have hlt := hr c x hx
      rw [hm] at hlt
      exact treeFuelAux_mono fs (Nat.lt_succ_iff.mp hlt) x
    have := List.sum_le_sum hpt
    omega

theorem find_from_terminates (fs : FS) (root : String) (rec : Bool)
    (rank : String → Nat)
    (hr : ∀ p c, c ∈ travChildren fs p → rank c < rank p) :
    ∀ (fuel : Nat) (queue : List (Option String × String)),
      queueFuel fs rank queue ≤ fuel →
      ∃ out, find_dependencies_from fs root rec fuel queue = some out := by
  intro fuel
  induction fuel with
  | zero =>
    intro queue hq
    cases queue with
    | nil => exact ⟨[], find_from_nil fs root rec 0⟩
    | cons pc rest =>
      exfalso
      have h1 : 1 ≤ nodeFuel fs rank pc.2 := treeFuelAux_pos fs _ _
      have h2 : queueFuel fs rank (pc :: rest) =
          nodeFuel fs rank pc.2 + queueFuel fs rank rest := by
        simp [queueFuel]
      omega
  | succ n ih =>
    intro queue hq
    cases queue with
    | nil => exact ⟨[], find_from_nil fs root rec (n + 1)⟩
    | cons pc rest =>
      obtain ⟨p, c⟩ := pc
      rw [find_from_succ_cons]
      have hsplit : queueFuel fs rank ((p, c) :: rest) =
          nodeFuel fs rank c + queueFuel fs rank rest := by
        simp [queueFuel]
      have hch := children_fuel_lt fs rank hr c
      have hnew : queueFuel fs rank (rest ++
          (if rec then (travChildren fs c).map (fun xx => (some c, xx)) else [])) ≤ n := by
        cases rec with
        | false =>
          have he : (if false then (travChildren fs c).map
              (fun xx => (some c, xx)) else ([] : List (Option String × String))) = [] := rfl
          rw [he, List.append_nil]
          have h1 : 1 ≤ nodeFuel fs rank c := treeFuelAux_pos fs _ _
          omega
        | true =>
          have he : (if true then (travChildren fs c).map
              (fun xx => (some c, xx)) else ([] : List (Option String × String))) =
              (travChildren fs c).map (fun xx => (some c, xx)) := rfl
          rw [he]
          have hq2 : queueFuel fs rank
              (rest ++ (travChildren fs c).map (fun xx => (some c, xx))) =
              queueFuel fs rank rest +
                ((travChildren fs c).map (nodeFuel fs rank)).sum := by
            simp only [queueFuel, List.map_append, List.sum_append, List.map_map]
            rfl
          omega
      obtain ⟨out, hout⟩ := ih _ hnew
      rw [hout]
      exact ⟨_, rfl⟩

/-- Counterexample support for C4: on the cyclic filesystem state `cycFS`
the BFS queue never empties, so no amount of fuel finishes the loop. -/
theorem cyc_no_term :
    ∀ (fuel : Nat) (queue : List (Option String × String)), queue ≠ [] →
      find_dependencies_from cycFS "/r" true fuel queue = none := by
  intro fuel
  induction fuel with
  | zero =>
    intro queue hq
    cases queue with
    | nil => exact absurd rfl hq
    | cons a t => rfl
  | succ n ih =>
    intro queue hq
    cases queue with
    | nil => exact absurd rfl hq
    | cons pc rest =>
      obtain ⟨p, c⟩ := pc
      rw [find_from_succ_cons]
      have he : (if true then (travChildren cycFS c).map
          (fun xx => (some c, xx)) else ([] : List (Option String × String))) =
          [(some c, c ++ "/" ++ "a")] := rfl
      rw [he, ih (rest ++ [(some c, c ++ "/" ++ "a")]) (by simp)]
      rfl

/-- Counterexample to C4 as stated: the claim quantifies over every
filesystem state, including trees whose subdirectory entries are symbolic
links; on the state `cycFS` — every path a directory listing a single entry
`a`, as produced by a parent-link cycle resolved without a hop limit — the
traversal enqueues forever and `find_dependencies` finishes for no fuel. -/
theorem rf_C4_cex :
    ¬ ∃ (fuel : Nat) (out : List (List String × String)),
        find_dependencies cycFS "/r" true fuel = some out := by
  rintro ⟨fuel, out, h⟩
  unfold find_dependencies at h
  rw [if_pos (show cycFS.isdir "/r" = true from rfl)] at h
  rw [cyc_no_term fuel [(none, "/r")] (by simp)] at h
  exact Option.noConfusion h

/-- C4 amended: the traversal terminates whenever directory nesting is
well-founded, i.e. some rank strictly decreases from a directory to each of
its traversal children — true of every finite physical tree without
symlink-induced infinite descent.  Then some finite fuel makes the BFS
finish and yield its finite pair list.  (Dependency links never feed the
queue, so they cannot affect this.) -/
theorem rf_C4 (fs : FS) (root : String) (recursive : Bool)
    (rank : String → Nat)
    (hr : ∀ p c, c ∈ travChildren fs p → rank c < rank p)
    (hroot : fs.isdir root = true) :
    ∃ fuel out, find_dependencies fs root recursive fuel = some out := by
  obtain ⟨out, hout⟩ := find_from_terminates fs root recursive rank hr
    (queueFuel fs rank [(none, root)]) [(none, root)] (le_refl _)
  refine ⟨queueFuel fs rank [(none, root)], out, ?_⟩
  unfold find_dependencies
  rw [if_pos hroot]
  exact hout

/-- Witness for C4 (amended) on the flat tree `fs0`, whose listings are all
empty: rank 0 everywhere decreases vacuously. -/
theorem rf_C4_witness :
    ∃ fuel out, find_dependencies fs0 "/r" true fuel = some out :=
  rf_C4 fs0 "/r" true (fun _ => 0)
    (fun p c h => by simp [travChildren, fs0] at h) rfl

/-- Splitting a character list at newline characters: the list of lines
(`str.split('\n')` semantics; the final segment is the text after the last
newline). -/
def splitLines : List Char → List (List Char)
  | [] => [[]]
  | c :: cs =>
    if c = '\n' then [] :: splitLines cs
    else
      match splitLines cs with
      | [] => [[c]]
      | l :: ls => (c :: l) :: ls

theorem splitLines_append (a : List Char) :
    ∀ b : List Char, '\n' ∉ a →
      splitLines (a ++ '\n' :: b) = a :: splitLines b := by
  induction a with
  | nil =>
    intro b _
    simp [splitLines]
  | cons c cs ih =>
    intro b h
    have hc : ¬ c = '\n' := fun e => h (e ▸ List.mem_cons_self c cs)
    have hcs : '\n' ∉ cs := fun m => h (List.mem_cons_of_mem _ m)
    show splitLines (c :: (cs ++ '\n' :: b)) = (c :: cs) :: splitLines b
    simp only [splitLines, if_neg hc]
    rw [ih b hcs]

theorem no_nl_append {a b : String} (ha : '\n' ∉ a.data) (hb : '\n' ∉ b.data) :
    '\n' ∉ (a ++ b).data := by
  rw [String.data_append]
  intro h
  rcases List.mem_append.mp h with h' | h'
  · exact ha h'
  · exact hb h'

theorem no_nl_join_space (l : List String) (h : ∀ s ∈ l, '\n' ∉ s.data) :
    '\n' ∉ (join_space l).data := by
  induction l with
  | nil => decide
  | cons x t ih =>
    cases t with
    | nil => exact h x (List.mem_cons_self x [])
    | cons y u =>
      show '\n' ∉ (x ++ " " ++ join_space (y :: u)).data
      exact no_nl_append
        (no_nl_append (h x (List.mem_cons_self x _)) (by decide))
        (ih (fun s hs => h s (List.mem_cons_of_mem _ hs)))

theorem no_nl_nohup {node : String} (h : '\n' ∉ node.data) :
    '\n' ∉ (nohup_out node).data :=
  no_nl_append h (by decide)

/-- C10: line structure of every emitted rule.  Splitting `rule_string`
at newlines (for any node and dependency paths themselves free of newlines)
gives exactly: the `.ONESHELL:` directive line; the rule line whose target
is the node's marker; the four tab-indented command lines `date`,
`mkdir node/_`, `cd node/_`, `nohup ../__/driver`; the blank separator line;
and the empty final segment after the terminating newline.  The marker is
`node ++ "/_/nohup.out"`.  Both node rules and trivial rules are produced by
this same function. -/
theorem rf_C10 (dependencies : List String) (node : String)
    (h1 : '\n' ∉ node.data) (h2 : ∀ d ∈ dependencies, '\n' ∉ d.data) :
    splitLines (rule_string dependencies node).data =
      [".ONESHELL:".data,
       (nohup_out node ++ ": " ++ join_space (dependencies.map nohup_out)).data,
       "\tdate".data,
       ("\tmkdir " ++ node ++ "/_").data,
       ("\tcd " ++ node ++ "/_").data,
       "\tnohup ../__/driver".data,
       [], []] ∧
    nohup_out node = node ++ "/_/nohup.out" := by
  refine ⟨?_, rfl⟩
  have hA : '\n' ∉
      (nohup_out node ++ ": " ++ join_space (dependencies.map nohup_out)).data := by
    refine no_nl_append (no_nl_append (no_nl_nohup h1) (by decide)) ?_
    refine no_nl_join_space _ ?_
    intro s hs
    obtain ⟨d, hd, hmap⟩ := List.mem_map.mp hs
    rw [← hmap]
    exact no_nl_nohup (h2 d hd)
  have hM : '\n' ∉ ("\tmkdir " ++ node ++ "/_").data :=
    no_nl_append (no_nl_append (by decide) h1) (by decide)
  have hC : '\n' ∉ ("\tcd " ++ node ++ "/_").data :=
    no_nl_append (no_nl_append (by decide) h1) (by decide)
  have hdata : (rule_string dependencies node).data =
      ".ONESHELL:".data ++ '\n' ::
        ((nohup_out node ++ ": " ++ join_space (dependencies.map nohup_out)).data ++ '\n' ::
          ("\tdate".data ++ '\n' ::
            (("\tmkdir " ++ node ++ "/_").data ++ '\n' ::
              (("\tcd " ++ node ++ "/_").data ++ '\n' ::
                ("\tnohup ../__/driver".data ++ '\n' :: ('\n' :: [])))))) := by
    have hnl : ("\n" : String).data = ['\n'] := rfl
    simp only [rule_string, String.data_append, hnl, List.append_assoc,
      List.singleton_append, List.cons_append, List.nil_append]
  rw [hdata]
  rw [splitLines_append ".ONESHELL:".data _ (by decide)]
  rw [splitLines_append
    (nohup_out node ++ ": " ++ join_space (dependencies.map nohup_out)).data _ hA]
  rw [splitLines_append "\tdate".data _ (by decide)]
  rw [splitLines_append ("\tmkdir " ++ node ++ "/_").data _ hM]
  rw [splitLines_append ("\tcd " ++ node ++ "/_").data _ hC]
  rw [splitLines_append "\tnohup ../__/driver".data _ (by decide)]
  rfl

/-- Witness for C10 at node `/n` with one dependency `/d`. -/
theorem rf_C10_witness :
    splitLines (rule_string ["/d"] "/n").data =
      [".ONESHELL:".data,
       (nohup_out "/n" ++ ": " ++ join_space (["/d"].map nohup_out)).data,
       "\tdate".data,
       ("\tmkdir " ++ "/n" ++ "/_").data,
       ("\tcd " ++ "/n" ++ "/_").data,
       "\tnohup ../__/driver".data,
       [], []] ∧
    nohup_out "/n" = "/n" ++ "/_/nohup.out" :=
  rf_C10 ["/d"] "/n" (by decide) (by decide)

end RF
